import Mathlib

set_option maxRecDepth 1000000

/-!
Verification of the Pythagorean tuple generators of the MathRec repository
(`ptuples.cpp` and `Experimental/qkptuples.cpp`).

Big integers (`mpz_t`) are modelled as `Nat`: every value the programs store
is nonnegative, and the few `mpz_sub` calls whose result could be negative are
immediately guarded by a `>= 1` comparison, which truncated `Nat` subtraction
models exactly (a negative mpz value and the truncated value `0` both fail the
`>= 1` test).  A tuple table is modelled as a `List Tentry` in insertion
order; `qsort` is modelled as insertion sort by the same comparator (the
programs' comparators never distinguish equal-valued entries in the tables
they build, so the value-level result is the same).
-/

namespace MathRec

/-- Mirror of `struct tentry`: the `a`-values (in stored order) and the
hypotenuse `b`.  `a_count` is `a.length`. -/
structure Tentry where
  a : List Nat
  b : Nat
deriving DecidableEq

instance : Inhabited Tentry := ⟨⟨[], 0⟩⟩

/-- `mpz_cmp` on nonnegative big integers. -/
def mpz_cmp (x y : Nat) : Int :=
  if x < y then -1 else if y < x then 1 else 0

/-- Mirror of `tentry_avalues_cmpfunc` (both programs): compare two a-values. -/
def tentry_avalues_cmpfunc (x y : Nat) : Int := mpz_cmp x y

/-- The element-wise comparison loop of `ttable_tentry_cmpfunc`: compare the
two a-vectors lexicographically, stopping at the end of the shorter one
(the C loop runs for `min a_count1 a_count2` steps). -/
def cmpAVals : List Nat → List Nat → Int
  | [], _ => 0
  | _, [] => 0
  | x :: xs, y :: ys => if mpz_cmp x y = 0 then cmpAVals xs ys else mpz_cmp x y

/-- Mirror of `ttable_tentry_cmpfunc` (both programs): order by `b`, then by
the a-vectors element-wise. -/
def ttable_tentry_cmpfunc (e1 e2 : Tentry) : Int :=
  if mpz_cmp e1.b e2.b = 0 then cmpAVals e1.a e2.a else mpz_cmp e1.b e2.b

/-- Mirror of `ttable_tentry_Bonly_cmpfunc` (`qkptuples.cpp`): order by `b`
only. -/
def ttable_tentry_Bonly_cmpfunc (e1 e2 : Tentry) : Int := mpz_cmp e1.b e2.b

/-- `x` sorts no later than `y` under `tentry_avalues_cmpfunc`. -/
def avLE (x y : Nat) : Prop := tentry_avalues_cmpfunc x y ≤ 0

instance : DecidableRel avLE := fun x y => by
  unfold avLE tentry_avalues_cmpfunc mpz_cmp
  infer_instance

instance : IsTotal Nat avLE :=
  ⟨fun x y => by
    simp only [avLE, tentry_avalues_cmpfunc, mpz_cmp]
    rcases Nat.lt_trichotomy x y with h | h | h <;>
      simp [h, Nat.lt_asymm, Nat.lt_irrefl] <;> omega⟩

instance : IsTrans Nat avLE :=
  ⟨fun x y z hxy hyz => by
    simp only [avLE, tentry_avalues_cmpfunc, mpz_cmp] at *
    split_ifs at * <;> omega⟩

/-- `e1` sorts no later than `e2` under `ttable_tentry_cmpfunc`. -/
def entLE (e1 e2 : Tentry) : Prop := ttable_tentry_cmpfunc e1 e2 ≤ 0

instance : DecidableRel entLE := fun x y => by
  unfold entLE
  infer_instance

/-- `qsort(..., tentry_avalues_cmpfunc)`: sort an a-vector ascending. -/
def sortA (l : List Nat) : List Nat := List.insertionSort avLE l

/-- `qsort(..., ttable_tentry_cmpfunc)`: canonical sort of a table. -/
def sortTT (t : List Tentry) : List Tentry := List.insertionSort entLE t

/-- The entry built by `MovePTuple` (both programs): takes ownership of the
a-values, sorts them ascending, and pairs them with `b`. -/
def movEntry (avalues : List Nat) (b : Nat) : Tentry :=
  ⟨sortA avalues, b⟩

/-- Mirror of `MovePTuple`: append the (a-sorted) entry to the table. -/
def MovePTuple (the_ttable : List Tentry) (avalues : List Nat) (b : Nat) :
    List Tentry :=
  the_ttable ++ [movEntry avalues b]

/-- Sum of the squares of a list of values. -/
def sumsq (l : List Nat) : Nat := (l.map fun x => x * x).sum

/-- Mirror of `CheckForDuplicateTuple` (both programs): the first `count`
elements of the two a-vectors are pairwise equal.  (In the programs `count`
never exceeds either length; if a list runs out the remaining positions are
treated as equal.) -/
def CheckForDuplicateTuple : List Nat → List Nat → Nat → Bool
  | _, _, 0 => true
  | x :: xs, y :: ys, n + 1 => x == y && CheckForDuplicateTuple xs ys n
  | _, _, _ + 1 => true

/-- The left-to-right scan of `RemDupTuples` after the canonical sort.
`prev` is the entry at the previous position of the sorted table.  An entry
equal (as a-vector, up to `prev.a_count` positions) to its predecessor is
discarded; a surviving entry is re-inserted via `MovePTuple`.  Both programs
implement exactly this scan: `ptuples.cpp` skips over `NumDupsAhead` chained
duplicates of each survivor, `qkptuples.cpp` keeps each entry that is not a
duplicate of its immediate predecessor; the two produce the same list. -/
def RemDupScanAux (prev : Tentry) : List Tentry → List Tentry
  | [] => []
  | y :: ys =>
    if CheckForDuplicateTuple prev.a y.a prev.a.length then RemDupScanAux y ys
    else movEntry y.a y.b :: RemDupScanAux y ys

/-- Mirror of `RemDupTuples` (both programs): tables with at most one entry
are returned unchanged; otherwise sort canonically and collapse runs of
adjacent duplicate a-vectors, keeping the first entry of each run. -/
def RemDupTuples (t : List Tentry) : List Tentry :=
  if t.length ≤ 1 then t
  else
    match sortTT t with
    | [] => []
    | x :: xs => movEntry x.a x.b :: RemDupScanAux x xs

/-- The gcd-folding loop of `TupleIsPrimitive`: starting from the running gcd
`g`, fold in the remaining a-values, short-circuiting as soon as the running
gcd is 1; if it never is, fold in `b` at the end. -/
def primLoop (g : Nat) (rest : List Nat) (b : Nat) : Bool :=
  if g = 1 then true
  else
    match rest with
    | [] => Nat.gcd g b == 1
    | x :: xs => primLoop (Nat.gcd g x) xs b

/-- Mirror of `TupleIsPrimitive` (both programs): with fewer than 2 a-values
it reports an internal error and returns "not primitive"; otherwise it folds
gcd over the a-values starting from `gcd a0 a1` and finally over `b`. -/
def TupleIsPrimitive (avalues : List Nat) (b : Nat) : Bool :=
  if avalues.length < 2 then false
  else primLoop (Nat.gcd (avalues.getD 0 0) (avalues.getD 1 0))
    (avalues.drop 2) b

/-- The `acount < 2` branch of `TupleIsPrimitive` prints
`"Internal Error:  TuplesIsPrimitive().  acount < 2."`; this predicate holds
exactly when that message is printed. -/
def TupleIsPrimitiveReportsError (avalues : List Nat) : Bool :=
  avalues.length < 2

/-!
### The exhaustive engine of `ptuples.cpp` (`BuildNTuples`)

The square lookup `sqrs` stores `i*i` in a `uint64_t` at index `i-1`; the
odometer state is the array `sqrindextumbler` of digit indices.  The
`subtotaltumbler` array always holds, at each read, the prefix sums of
`sqrs[sqrindextumbler[k]]`: the top of the loop body recomputes positions
`i..lasttumbler` from the current indices, and positions below `i` were
computed from index values that have not changed since.  The model therefore
keeps only the index list and recomputes the prefix sums where the C code
reads `subtotaltumbler`.
-/

/-- `sqrs[j]`: the square `(j+1)*(j+1)` as stored in a `uint64_t`
(reduced mod `2^64`). -/
def sqrsVal (j : Nat) : Nat := ((j + 1) * (j + 1)) % (2 ^ 64)

/-- `subtotaltumbler[j]`: sum of `sqrs[st k]` for `k ≤ j`, where `st` is the
current `sqrindextumbler` array (modelled as a function from positions to
index values; positions beyond `numtumblers - 1` are never touched and stay
0). -/
def subTotal (st : Nat → Nat) (j : Nat) : Nat :=
  ((List.range (j + 1)).map fun k => sqrsVal (st k)).sum

/-- Search-range parameters of one `BuildNTuples` invocation. -/
structure OdoCfg where
  bminSqr : Nat
  bmaxSqr : Nat
  numsqrs : Nat
  numtumblers : Nat

/-- The Newton iteration of `mpz_sqrt`, with explicit fuel so that the
kernel can evaluate it (each step strictly decreases the guess, so
`fuel ≥ guess` steps always suffice; `isqrt_eq_sqrt` below shows the result
is the usual floor square root `Nat.sqrt`). -/
def isqrtIter (n : Nat) : Nat → Nat → Nat
  | 0, guess => guess
  | fuel + 1, guess =>
    let next := (guess + n / guess) / 2
    if next < guess then isqrtIter n fuel next else guess

/-- Floor square root (`mpz_sqrt`), implemented by structural recursion. -/
def isqrt (n : Nat) : Nat :=
  if n ≤ 1 then n else isqrtIter n (n / 2) (n / 2)

/-- The skip-ahead of `ptuples.cpp` lines 186-205: given
`tempZ = b_min_sqr - subtotal[i-1] ≥ 1`, jump the last digit's index to
`sqrt tempZ`, minus one as a safety margin, clamped to the lookup size. -/
def skipIndex (bminSqr pfx numsqrs : Nat) : Nat :=
  let s := isqrt (bminSqr - pfx)
  let s1 := if 0 < s then s - 1 else s
  if s1 ≥ numsqrs then numsqrs - 1 else s1

/-- The carry-propagation loop (lines 219-228): while the digit at the
current position has exhausted its range, reset it to 0 and move to the next
less significant digit, which is either bumped past its range (if its
subtotal already exceeds `b_max²`) or incremented.  Returns `none` when the
most significant digit carries out (`i` goes negative). -/
def odoCarry (cfg : OdoCfg) : (Nat → Nat) → Nat → Option (Nat → Nat)
  | st, 0 => if st 0 ≥ cfg.numsqrs then none else some st
  | st, j + 1 =>
    if st (j + 1) ≥ cfg.numsqrs then
      let st1 := Function.update st (j + 1) 0
      let st2 :=
        if subTotal st1 j > cfg.bmaxSqr then Function.update st1 j cfg.numsqrs
        else Function.update st1 j (st1 j + 1)
      odoCarry cfg st2 j
    else some st

/-- One iteration of the outer odometer loop (lines 176-229), entered with
`i` back at the last tumbler: apply the skip-ahead if this digit is at index
0, test the total against the range and for squareness (saving a tuple via
`SaveToTuple`/`MovePTuple` when it qualifies), advance the last digit, and
propagate the carry.  Returns the (possibly extended) table and the next
digit state (`none` = enumeration finished).  The `subtotaltumbler` prefix
sums are recomputed from the digit state at each read, which is what the C
code maintains by refreshing positions `i..lasttumbler` at the top of every
iteration. -/
def odoStep (cfg : OdoCfg) (st : Nat → Nat) (table : List Tentry) :
    List Tentry × Option (Nat → Nat) :=
  let last := cfg.numtumblers - 1
  let pfx := ((List.range last).map fun k => sqrsVal (st k)).sum
  let st1 :=
    if st last = 0 ∧ 1 ≤ cfg.bminSqr - pfx then
      Function.update st last (skipIndex cfg.bminSqr pfx cfg.numsqrs)
    else st
  let total := pfx + sqrsVal (st1 last)
  let table1 :=
    if cfg.bminSqr ≤ total ∧ total ≤ cfg.bmaxSqr ∧
        isqrt total * isqrt total = total then
      MovePTuple table ((List.range cfg.numtumblers).map fun k => st1 k + 1)
        (isqrt total)
    else table
  let st2 :=
    if total > cfg.bmaxSqr then Function.update st1 last cfg.numsqrs
    else Function.update st1 last (st1 last + 1)
  (table1, odoCarry cfg st2 last)

/-- The outer odometer loop, with explicit fuel (the C loop terminates
because the digit vector strictly increases in odometer order; the fuel
plays no other role). -/
def odoRun (cfg : OdoCfg) : Nat → (Nat → Nat) → List Tentry → List Tentry
  | 0, _, table => table
  | fuel + 1, st, table =>
    match odoStep cfg st table with
    | (table1, none) => table1
    | (table1, some st1) => odoRun cfg fuel st1 table1

/-- Mirror of `BuildNTuples` in `ptuples.cpp`: run the odometer over all
digit combinations starting from the all-zero state, deduplicate, and move
the survivors (filtered by `TupleIsPrimitive` when requested) into the
final table. -/
def ptuplesBuildNTuples (DoOnlyPrimitives : Bool) (b_min b_max N fuel : Nat) :
    List Tentry :=
  let cfg : OdoCfg :=
    { bminSqr := b_min * b_min, bmaxSqr := b_max * b_max,
      numsqrs := b_max - 1, numtumblers := N - 1 }
  let tmp := odoRun cfg fuel (fun _ => 0) []
  let tmp2 := RemDupTuples tmp
  (tmp2.filter fun e => !DoOnlyPrimitives || TupleIsPrimitive e.a e.b).map
    fun e => movEntry e.a e.b

/-!
### The triple source and growth engine of `qkptuples.cpp`
-/

/-- The `k` loop of `Build3Tuples` (lines 362-373): starting from
`k = b_min / c`, emit `(k*a, k*b, k*c)` for every `k` with
`b_min ≤ k*c ≤ b_max` (skipping values with `k*c < b_min`).  Fuel-driven;
`b_max + 2` is always enough fuel since `c ≥ 1`. -/
def kLoop (a b c b_min b_max : Nat) : Nat → Nat → List Tentry
  | 0, _ => []
  | fuel + 1, k =>
    if k * c ≤ b_max then
      if k * c < b_min then kLoop a b c b_min b_max fuel (k + 1)
      else movEntry [k * a, k * b] (k * c) :: kLoop a b c b_min b_max fuel (k + 1)
    else []

/-- The `m` loop of `Build3Tuples` (lines 336-375): step `m` by 2 up to
`m_max`; for coprime `(m, n)` build the Euclid triple
`a = m²-n², b = 2mn, c = m²+n²`, drop it if `c` is outside
`[working_b_min, b_max]`, and emit it directly (primitives mode) or via the
`k` loop.  Fuel-driven; `m_max + 2` is always enough fuel. -/
def mLoop (n nsq working b_min b_max m_max : Nat) (prim : Bool) :
    Nat → Nat → List Tentry
  | 0, _ => []
  | fuel + 1, m =>
    if m ≤ m_max then
      (if Nat.gcd m n = 1 then
        let msq := m * m
        let a := msq - nsq
        let b := 2 * (m * n)
        let c := msq + nsq
        if c < working ∨ b_max < c then []
        else if prim then [movEntry [a, b] c]
        else kLoop a b c b_min b_max (b_max + 2) (b_min / c)
      else []) ++ mLoop n nsq working b_min b_max m_max prim fuel (m + 2)
    else []

/-- Mirror of `Build3Tuples`: iterate `n` from 1 to
`⌊√⌈b_max/2⌉⌋`, compute the `m` bounds with one-unit safety margins, and run
the `m` loop from the first candidate of the right parity.
`working_b_min` is `b_min` in primitives mode and 1 otherwise.  The
`max _ 1` renders the C guard `if (x < 1) x = 1` (which also catches the
negative mpz values that truncated subtraction sends to 0). -/
def Build3Tuples (prim : Bool) (b_min b_max : Nat) : List Tentry :=
  let working := if prim then b_min else 1
  let n_max := isqrt ((b_max + 1) / 2)
  (List.range n_max).map (fun i => i + 1) |>.foldr
    (fun n acc =>
      let nsq := n * n
      let m_min := isqrt (max (working - nsq) 1) - 1
      let m_max := isqrt (max (b_max - nsq) 1)
      let mstart :=
        if n < m_min then (if (m_min - n) % 2 = 0 then m_min + 1 else m_min)
        else n + 1
      mLoop n nsq working b_min b_max m_max prim (m_max + 2) mstart ++ acc)
    []

/-- The glibc `bsearch` midpoint loop over a table, comparing only `b`
values (`ttable_tentry_Bonly_cmpfunc`); returns the index of some matching
entry.  Fuel-driven; `t.length + 1` is always enough fuel. -/
def bsearchLoop (t : List Tentry) (B : Nat) : Nat → Nat → Nat → Option Nat
  | 0, _, _ => none
  | fuel + 1, lo, hi =>
    if lo < hi then
      let mid := (lo + hi) / 2
      let c := mpz_cmp B (t.getD mid default).b
      if c < 0 then bsearchLoop t B fuel lo mid
      else if 0 < c then bsearchLoop t B fuel (mid + 1) hi
      else some mid
    else none

/-- The backward scan of `GetFirstBIndex` (lines 524-525): as written in the
source, it walks back only `while index > 1`, so it can stop at index 1 even
when entry 0 also matches. -/
def backScan (t : List Tentry) (B : Nat) : Nat → Nat
  | 0 => 0
  | 1 => 1
  | i + 2 =>
    if (t.getD (i + 1) default).b = B then backScan t B (i + 1) else i + 2

/-- Mirror of `GetFirstBIndex`: binary-search for any entry whose `b` equals
`B`, then scan backward; `-1` when no entry matches. -/
def GetFirstBIndex (t : List Tentry) (B : Nat) : Int :=
  match bsearchLoop t B (t.length + 1) 0 t.length with
  | none => -1
  | some m => Int.ofNat (backScan t B m)

/-- The `do`-`while` of `BuildNTuples` (lines 193-216): the run of indices
starting at `idx`, extended while the next entry's `b` still equals `B`.
Fuel-driven; `t.length + 1` is always enough fuel. -/
def doWhileIdxs (t : List Tentry) (B : Nat) : Nat → Nat → List Nat
  | 0, _ => []
  | fuel + 1, idx =>
    idx ::
      (if idx + 1 < t.length ∧ (t.getD (idx + 1) default).b = B then
        doWhileIdxs t B fuel (idx + 1)
      else [])

/-- The new a-vector built by the substitution (lines 194-211): positions
`0..j-1` of the old vector, then the two a-values of the matched triple,
then the remaining old positions. -/
def newAValues (old : List Nat) (j : Nat) (x y : Nat) : List Nat :=
  old.take j ++ [x, y] ++ old.drop (j + 1)

/-- All tuples contributed by one entry of the previous-arity table: for
every position `j` of its a-vector, find the run of triples whose hypotenuse
equals `a_j` and substitute each one in. -/
def growOne (three : List Tentry) (e : Tentry) : List Tentry :=
  ((List.range e.a.length).map fun j =>
      let B := e.a.getD j 0
      match GetFirstBIndex three B with
      | Int.ofNat idx0 =>
        (doWhileIdxs three B (three.length + 1) idx0).map fun idx =>
          let t := three.getD idx default
          movEntry (newAValues e.a j (t.a.getD 0 0) (t.a.getD 1 0)) e.b
      | Int.negSucc _ => []).flatten

/-- One pass of the `tsize` loop (lines 177-222): build the next-arity table
from the current one and deduplicate it. -/
def growStage (three cur : List Tentry) : List Tentry :=
  RemDupTuples ((cur.map (growOne three)).flatten)

/-- The `tsize` loop iterated `stages` times. -/
def growStages (three : List Tentry) : Nat → List Tentry → List Tentry
  | 0, cur => cur
  | s + 1, cur => growStages three s (growStage three cur)

/-- Mirror of `BuildNTuples` in `qkptuples.cpp`: for `N = 3` delegate to
`Build3Tuples` and sort; otherwise build the helper 3-tuple table for
hypotenuses 5..`b_max`, seed the arity-3 table with entries whose `b ≥
b_min`, grow one arity per stage, filter by primitivity if requested, move
into the output table and sort. -/
def qkBuildNTuples (DoOnlyPrimitives : Bool) (b_min b_max N : Nat) :
    List Tentry :=
  if N = 3 then sortTT (Build3Tuples DoOnlyPrimitives b_min b_max)
  else
    let three := sortTT (Build3Tuples false 5 b_max)
    let seed := (three.filter fun e => b_min ≤ e.b).map fun e =>
      movEntry [e.a.getD 0 0, e.a.getD 1 0] e.b
    let ready := growStages three (N - 3) seed
    sortTT
      ((ready.filter fun e => !DoOnlyPrimitives || TupleIsPrimitive e.a e.b).map
        fun e => movEntry e.a e.b)

/-!
### Specification-side definitions and the `main` validation logic
-/

/-- `MAXB` of `ptuples.cpp`: `4294967294 = 2^32 - 2`. -/
def MAXB : Nat := 4294967294

/-- Observable outcome of a `main` invocation: the exit code, whether a
usage/validation diagnostic was printed on standard output, and the tuples
printed (one line each, in table order). -/
structure MainResult where
  exitCode : Int
  diag : Bool
  tuples : List Tentry
deriving DecidableEq

/-- Mirror of `main` in `ptuples.cpp`, taking the parsed command line:
`argc`, whether `argv[1]` is `"-p"`, `tuple_size` as parsed by `atol`, and
`b_min`/`b_max` as parsed by `mpz_init_set_str` (external parsers are
treated as supplied primitives).  Validation failures print a diagnostic and
exit 1 before any search; otherwise the tuple table is built and printed and
the exit code is 0. -/
def ptuplesMain (argc : Nat) (argv1IsDashP : Bool)
    (tuple_size b_min b_max : Int) (fuel : Nat) : MainResult :=
  if argc ≠ 4 ∧ argc ≠ 5 then ⟨1, true, []⟩
  else if tuple_size < 3 then ⟨1, true, []⟩
  else if b_min < 1 then ⟨1, true, []⟩
  else if b_max < b_min then ⟨1, true, []⟩
  else if (MAXB : Int) < b_max then ⟨1, true, []⟩
  else
    ⟨0, false,
      ptuplesBuildNTuples (argc = 5 && argv1IsDashP) b_min.toNat b_max.toNat
        tuple_size.toNat fuel⟩

/-- Mirror of `main` in `qkptuples.cpp`: identical validation except that
there is no `MAXB` ceiling on `b_max`. -/
def qkMain (argc : Nat) (argv1IsDashP : Bool)
    (tuple_size b_min b_max : Int) : MainResult :=
  if argc ≠ 4 ∧ argc ≠ 5 then ⟨1, true, []⟩
  else if tuple_size < 3 then ⟨1, true, []⟩
  else if b_min < 1 then ⟨1, true, []⟩
  else if b_max < b_min then ⟨1, true, []⟩
  else
    ⟨0, false,
      qkBuildNTuples (argc = 5 && argv1IsDashP) b_min.toNat b_max.toNat
        tuple_size.toNat⟩

/-!
## Theorems

### Generic lemmas about the comparators, sorting and `movEntry`
-/

theorem isqrtIter_eq (n : Nat) :
    ∀ (fuel guess : Nat), guess ≤ fuel →
      isqrtIter n fuel guess = Nat.sqrt.iter n guess := by
  intro fuel
  induction fuel with
  | zero =>
    intro guess h
    have hg : guess = 0 := by omega
    subst hg
    rw [isqrtIter]
    unfold Nat.sqrt.iter
    simp
  | succ f ih =>
    intro guess h
    rw [isqrtIter]
    unfold Nat.sqrt.iter
    by_cases hn : (guess + n / guess) / 2 < guess
    · rw [if_pos hn, dif_pos hn]
      exact ih _ (by omega)
    · rw [if_neg hn, dif_neg hn]

theorem isqrt_eq_sqrt (n : Nat) : isqrt n = Nat.sqrt n := by
  unfold isqrt Nat.sqrt
  split_ifs with h
  · rfl
  · exact isqrtIter_eq n _ _ (le_refl _)

theorem mpz_cmp_le_iff {x y : Nat} : mpz_cmp x y ≤ 0 ↔ x ≤ y := by
  unfold mpz_cmp; split_ifs <;> simp <;> omega

theorem mpz_cmp_eq_zero_iff {x y : Nat} : mpz_cmp x y = 0 ↔ x = y := by
  unfold mpz_cmp; split_ifs <;> simp <;> omega

theorem mpz_cmp_neg {x y : Nat} (h : x < y) : mpz_cmp x y = -1 := by
  unfold mpz_cmp; split_ifs <;> first | rfl | omega

theorem avLE_iff {x y : Nat} : avLE x y ↔ x ≤ y := by
  unfold avLE tentry_avalues_cmpfunc; exact mpz_cmp_le_iff

theorem sortA_perm (l : List Nat) : (sortA l).Perm l :=
  List.perm_insertionSort avLE l

theorem sortA_sorted (l : List Nat) : (sortA l).Sorted (· ≤ ·) :=
  (List.sorted_insertionSort avLE l).imp fun h => avLE_iff.mp h

theorem sortA_eq_of_sorted {l : List Nat} (h : l.Sorted (· ≤ ·)) :
    sortA l = l :=
  List.Sorted.insertionSort_eq (h.imp fun hl => avLE_iff.mpr hl)

theorem sumsq_eq_of_perm {l1 l2 : List Nat} (h : l1.Perm l2) :
    sumsq l1 = sumsq l2 :=
  (h.map fun x => x * x).sum_eq

theorem movEntry_b (a : List Nat) (b : Nat) : (movEntry a b).b = b := rfl

theorem movEntry_a_perm (a : List Nat) (b : Nat) : (movEntry a b).a.Perm a :=
  sortA_perm a

theorem movEntry_sumsq (a : List Nat) (b : Nat) :
    sumsq (movEntry a b).a = sumsq a :=
  sumsq_eq_of_perm (movEntry_a_perm a b)

theorem movEntry_len (a : List Nat) (b : Nat) :
    (movEntry a b).a.length = a.length :=
  (movEntry_a_perm a b).length_eq

theorem movEntry_sorted (a : List Nat) (b : Nat) :
    (movEntry a b).a.Sorted (· ≤ ·) :=
  sortA_sorted a

theorem movEntry_eq_self {e : Tentry} (h : e.a.Sorted (· ≤ ·)) :
    movEntry e.a e.b = e := by
  unfold movEntry
  rw [sortA_eq_of_sorted h]

theorem mpz_cmp_pos {x y : Nat} (h : y < x) : mpz_cmp x y = 1 := by
  unfold mpz_cmp; split_ifs <;> first | rfl | omega

theorem mpz_cmp_self (x : Nat) : mpz_cmp x x = 0 := by
  unfold mpz_cmp; split_ifs <;> first | rfl | omega

theorem cmpAVals_self (a : List Nat) : cmpAVals a a = 0 := by
  induction a with
  | nil => rfl
  | cons x xs ih => simp [cmpAVals, mpz_cmp_self, ih]

theorem cmpAVals_swap (a b : List Nat) : cmpAVals b a = -cmpAVals a b := by
  induction a generalizing b with
  | nil => cases b <;> simp [cmpAVals]
  | cons x xs ih =>
    cases b with
    | nil => simp [cmpAVals]
    | cons y ys =>
      rcases Nat.lt_trichotomy x y with h | h | h
      · simp [cmpAVals, mpz_cmp_neg h, mpz_cmp_pos h]
      · subst h; simp [cmpAVals, mpz_cmp_self, ih]
      · simp [cmpAVals, mpz_cmp_neg h, mpz_cmp_pos h]

theorem cmpAVals_trans {a b c : List Nat} (hab : a.length = b.length)
    (hbc : b.length = c.length) (h1 : cmpAVals a b ≤ 0)
    (h2 : cmpAVals b c ≤ 0) : cmpAVals a c ≤ 0 := by
  induction a generalizing b c with
  | nil => cases c <;> simp [cmpAVals]
  | cons x xs ih =>
    cases b with
    | nil => simp at hab
    | cons y ys =>
      cases c with
      | nil => simp at hbc
      | cons z zs =>
        simp only [List.length_cons, Nat.add_right_cancel_iff] at hab hbc
        rcases Nat.lt_trichotomy x y with hxy | hxy | hxy <;>
          rcases Nat.lt_trichotomy y z with hyz | hyz | hyz
        · have : x < z := Nat.lt_trans hxy hyz
          simp [cmpAVals, mpz_cmp_neg this]
        · subst hyz; simp [cmpAVals, mpz_cmp_neg hxy]
        · simp [cmpAVals, mpz_cmp_neg hxy, mpz_cmp_pos hyz] at * <;> omega
        · subst hxy; simp [cmpAVals, mpz_cmp_neg hyz]
        · subst hxy; subst hyz
          simp only [cmpAVals, mpz_cmp_self, if_pos] at *
          exact ih hab hbc h1 h2
        · subst hxy
          simp [cmpAVals, mpz_cmp_pos hyz] at * <;> omega
        · simp [cmpAVals, mpz_cmp_pos hxy] at h1 <;> omega
        · subst hyz
          simp [cmpAVals, mpz_cmp_pos hxy] at h1 <;> omega
        · simp [cmpAVals, mpz_cmp_pos hxy] at h1 <;> omega

theorem entLE_iff {e1 e2 : Tentry} :
    entLE e1 e2 ↔ e1.b < e2.b ∨ (e1.b = e2.b ∧ cmpAVals e1.a e2.a ≤ 0) := by
  unfold entLE ttable_tentry_cmpfunc
  rcases Nat.lt_trichotomy e1.b e2.b with h | h | h
  · simp [mpz_cmp_neg h, h] <;> omega
  · simp [h, mpz_cmp_self]
  · simp [mpz_cmp_pos h, Nat.lt_asymm h] <;> omega

theorem entLE_total (e1 e2 : Tentry) : entLE e1 e2 ∨ entLE e2 e1 := by
  rw [entLE_iff, entLE_iff]
  rcases Nat.lt_trichotomy e1.b e2.b with h | h | h
  · exact Or.inl (Or.inl h)
  · have hs := cmpAVals_swap e1.a e2.a
    omega
  · exact Or.inr (Or.inl h)

theorem entLE_trans_of_len {x y z : Tentry} (hxy : x.a.length = y.a.length)
    (hyz : y.a.length = z.a.length) (h1 : entLE x y) (h2 : entLE y z) :
    entLE x z := by
  rw [entLE_iff] at *
  rcases h1 with h1 | ⟨h1b, h1a⟩ <;> rcases h2 with h2 | ⟨h2b, h2a⟩
  · exact Or.inl (Nat.lt_trans h1 h2)
  · exact Or.inl (h2b ▸ h1)
  · exact Or.inl (h1b ▸ h2)
  · exact Or.inr ⟨h1b.trans h2b, cmpAVals_trans hxy hyz h1a h2a⟩

theorem pairwise_orderedInsert_restricted {α : Type} (r : α → α → Prop)
    [DecidableRel r] (P : α → Prop)
    (total : ∀ x y, P x → P y → r x y ∨ r y x)
    (tr : ∀ x y z, P x → P y → P z → r x y → r y z → r x z)
    (a : α) (l : List α) (ha : P a) (hl : ∀ x ∈ l, P x)
    (hp : l.Pairwise r) : (List.orderedInsert r a l).Pairwise r := by
  induction l with
  | nil => simp
  | cons b bs ih =>
    by_cases hr : r a b
    · rw [List.orderedInsert, if_pos hr]
      refine List.Pairwise.cons ?_ hp
      intro z hz
      rcases List.mem_cons.mp hz with rfl | hz2
      · exact hr
      · exact tr a b z ha (hl b (by simp)) (hl z (by simp [hz2])) hr
          (List.rel_of_pairwise_cons hp hz2)
    · rw [List.orderedInsert, if_neg hr]
      have hba : r b a := (total a b ha (hl b (by simp))).resolve_left hr
      refine List.Pairwise.cons ?_
        (ih (fun x hx => hl x (by simp [hx])) hp.of_cons)
      intro z hz
      rcases List.mem_cons.mp (((List.perm_orderedInsert r a bs).mem_iff).mp hz)
        with rfl | hz2
      · exact hba
      · exact List.rel_of_pairwise_cons hp hz2

theorem pairwise_insertionSort_restricted {α : Type} (r : α → α → Prop)
    [DecidableRel r] (P : α → Prop)
    (total : ∀ x y, P x → P y → r x y ∨ r y x)
    (tr : ∀ x y z, P x → P y → P z → r x y → r y z → r x z)
    (l : List α) (hl : ∀ x ∈ l, P x) :
    (List.insertionSort r l).Pairwise r := by
  induction l with
  | nil => simp
  | cons a as ih =>
    rw [List.insertionSort]
    refine pairwise_orderedInsert_restricted r P total tr a _
      (hl a (by simp)) ?_ (ih fun x hx => hl x (by simp [hx]))
    intro x hx
    exact hl x (by
      simp [((List.perm_insertionSort r as).mem_iff).mp hx])

theorem sortTT_perm (t : List Tentry) : (sortTT t).Perm t :=
  List.perm_insertionSort entLE t

theorem sortTT_pairwise {t : List Tentry} {m : Nat}
    (h : ∀ e ∈ t, e.a.length = m) : (sortTT t).Pairwise entLE :=
  pairwise_insertionSort_restricted entLE (fun e => e.a.length = m)
    (fun x y _ _ => entLE_total x y)
    (fun x y z hx hy hz => entLE_trans_of_len (hx.trans hy.symm)
      (hy.trans hz.symm))
    t h

/-!
### Lemmas about deduplication
-/

theorem mem_remDupScanAux {e : Tentry} {prev : Tentry} {l : List Tentry}
    (h : e ∈ RemDupScanAux prev l) : ∃ e0 ∈ l, e = movEntry e0.a e0.b := by
  induction l generalizing prev with
  | nil => simp [RemDupScanAux] at h
  | cons y ys ih =>
    simp only [RemDupScanAux] at h
    split_ifs at h with hd
    · obtain ⟨e0, he0, he⟩ := ih h
      exact ⟨e0, by simp [he0], he⟩
    · rcases List.mem_cons.mp h with rfl | h2
      · exact ⟨y, by simp, rfl⟩
      · obtain ⟨e0, he0, he⟩ := ih h2
        exact ⟨e0, by simp [he0], he⟩

theorem mem_RemDupTuples {t : List Tentry} {e : Tentry}
    (h : e ∈ RemDupTuples t) : ∃ e0 ∈ t, e.a.Perm e0.a ∧ e.b = e0.b := by
  unfold RemDupTuples at h
  split_ifs at h with hlen
  · exact ⟨e, h, List.Perm.refl _, rfl⟩
  · cases hs : sortTT t with
    | nil => rw [hs] at h; simp at h
    | cons x xs =>
      rw [hs] at h
      rcases List.mem_cons.mp h with rfl | h2
      · have hx : x ∈ sortTT t := by rw [hs]; simp
        exact ⟨x, (sortTT_perm t).subset hx, movEntry_a_perm _ _, rfl⟩
      · obtain ⟨e0, he0, rfl⟩ := mem_remDupScanAux h2
        have he0' : e0 ∈ sortTT t := by
          rw [hs]; exact List.mem_cons_of_mem _ he0
        exact ⟨e0, (sortTT_perm t).subset he0', movEntry_a_perm _ _, rfl⟩

theorem remDup_a_sorted {t : List Tentry} {e : Tentry}
    (h : e ∈ RemDupTuples t) (h0 : ∀ x ∈ t, x.a.Sorted (· ≤ ·)) :
    e.a.Sorted (· ≤ ·) := by
  unfold RemDupTuples at h
  split_ifs at h with hlen
  · exact h0 e h
  · cases hs : sortTT t with
    | nil => rw [hs] at h; simp at h
    | cons x xs =>
      rw [hs] at h
      rcases List.mem_cons.mp h with rfl | h2
      · exact movEntry_sorted _ _
      · obtain ⟨e0, _, rfl⟩ := mem_remDupScanAux h2
        exact movEntry_sorted _ _

theorem remDupScanAux_sublist {l : List Tentry} :
    ∀ {prev : Tentry}, (∀ x ∈ l, x.a.Sorted (· ≤ ·)) →
      (RemDupScanAux prev l).Sublist l := by
  induction l with
  | nil => intro prev _; simp [RemDupScanAux]
  | cons y ys ih =>
    intro prev hs
    simp only [RemDupScanAux]
    split_ifs with hd
    · exact (ih fun x hx => hs x (by simp [hx])).cons y
    · have hy : movEntry y.a y.b = y := movEntry_eq_self (hs y (by simp))
      rw [hy]
      exact (ih fun x hx => hs x (by simp [hx])).cons₂ y

theorem RemDupTuples_sublist {t : List Tentry}
    (hs : ∀ x ∈ t, x.a.Sorted (· ≤ ·)) :
    (RemDupTuples t).Sublist (sortTT t) := by
  unfold RemDupTuples
  split_ifs with hlen
  · match t with
    | [] => simp
    | [x] => simp [sortTT, List.insertionSort]
    | x :: y :: r => simp at hlen
  · cases hs2 : sortTT t with
    | nil => simp
    | cons x xs =>
      have hx : x ∈ t := (sortTT_perm t).subset (by rw [hs2]; simp)
      show (movEntry x.a x.b :: RemDupScanAux x xs).Sublist (x :: xs)
      rw [movEntry_eq_self (hs x hx)]
      refine (remDupScanAux_sublist fun z hz => hs z ?_).cons₂ x
      exact (sortTT_perm t).subset (by rw [hs2]; exact List.mem_cons_of_mem _ hz)

theorem sqrsVal_eq {j : Nat} (h : j + 1 ≤ 4294967293) :
    sqrsVal j = (j + 1) * (j + 1) := by
  unfold sqrsVal
  apply Nat.mod_eq_of_lt
  calc (j + 1) * (j + 1) ≤ 4294967293 * 4294967293 := Nat.mul_le_mul h h
    _ < 2 ^ 64 := by norm_num

theorem sqrsVal_zero : sqrsVal 0 = 1 := rfl

theorem skipIndex_lt {bminSqr pfx numsqrs : Nat} (h : 1 ≤ numsqrs) :
    skipIndex bminSqr pfx numsqrs < numsqrs := by
  simp only [skipIndex]
  split_ifs <;> omega

theorem skipIndex_numsqrs_zero (bminSqr pfx : Nat) :
    skipIndex bminSqr pfx 0 = 0 := by
  simp only [skipIndex]
  split_ifs <;> omega

theorem odoCarry_bounded {cfg : OdoCfg} (hns : 1 ≤ cfg.numsqrs) :
    ∀ (i : Nat) (st : Nat → Nat), (∀ k, k ≠ i → st k < cfg.numsqrs) →
      odoCarry cfg st i = none ∨
        ∃ st1, odoCarry cfg st i = some st1 ∧ ∀ k, st1 k < cfg.numsqrs := by
  intro i
  induction i with
  | zero =>
    intro st h
    rw [odoCarry]
    split_ifs with hc
    · exact Or.inl rfl
    · refine Or.inr ⟨st, rfl, fun k => ?_⟩
      by_cases hk : k = 0
      · subst hk; omega
      · exact h k hk
  | succ j ih =>
    intro st h
    rw [odoCarry]
    split_ifs with hc
    · have h2 : ∀ k, k ≠ j →
          (Function.update st (j + 1) 0) k < cfg.numsqrs := by
        intro k _
        by_cases hk : k = j + 1
        · subst hk; simp only [Function.update_same]; omega
        · rw [Function.update_noteq hk]
          exact h k hk
      · apply ih
        intro k hk
        split_ifs with hover
        · rw [Function.update_noteq hk]; exact h2 k hk
        · rw [Function.update_noteq hk]; exact h2 k hk
    · refine Or.inr ⟨st, rfl, fun k => ?_⟩
      by_cases hk : k = j + 1
      · subst hk; omega
      · exact h k hk

theorem odoStep_spec {cfg : OdoCfg} (hns : 1 ≤ cfg.numsqrs)
    (hnt : 1 ≤ cfg.numtumblers) (st : Nat → Nat) (table : List Tentry)
    (hst : ∀ k, st k < cfg.numsqrs) :
    (∀ e ∈ (odoStep cfg st table).1, e ∈ table ∨
      ∃ g : Nat → Nat, (∀ k, g k < cfg.numsqrs) ∧
        e = movEntry ((List.range cfg.numtumblers).map fun k => g k + 1)
          (isqrt
            (((List.range cfg.numtumblers).map fun k => sqrsVal (g k)).sum)) ∧
        cfg.bminSqr ≤
          ((List.range cfg.numtumblers).map fun k => sqrsVal (g k)).sum ∧
        ((List.range cfg.numtumblers).map fun k => sqrsVal (g k)).sum ≤
          cfg.bmaxSqr ∧
        isqrt (((List.range cfg.numtumblers).map fun k => sqrsVal (g k)).sum) *
            isqrt
              (((List.range cfg.numtumblers).map fun k => sqrsVal (g k)).sum) =
          ((List.range cfg.numtumblers).map fun k => sqrsVal (g k)).sum) ∧
    ((odoStep cfg st table).2 = none ∨
      ∃ st1, (odoStep cfg st table).2 = some st1 ∧
        ∀ k, st1 k < cfg.numsqrs) := by
  simp only [odoStep]
  set last := cfg.numtumblers - 1 with hlast
  set pfx := ((List.range last).map fun k => sqrsVal (st k)).sum with hpfx
  set st1 :=
    if st last = 0 ∧ 1 ≤ cfg.bminSqr - pfx then
      Function.update st last (skipIndex cfg.bminSqr pfx cfg.numsqrs)
    else st with hst1def
  have hst1 : ∀ k, st1 k < cfg.numsqrs := by
    intro k
    rw [hst1def]
    split_ifs with hskip
    · by_cases hk : k = last
      · subst hk; rw [Function.update_same]; exact skipIndex_lt hns
      · rw [Function.update_noteq hk]; exact hst k
    · exact hst k
  have hagree : ∀ k < last, st1 k = st k := by
    intro k hk
    rw [hst1def]
    split_ifs with hskip
    · rw [Function.update_noteq (by omega)]
    · rfl
  set total := pfx + sqrsVal (st1 last) with htotal
  have htotS :
      total = ((List.range cfg.numtumblers).map fun k => sqrsVal (st1 k)).sum := by
    have hnt2 : cfg.numtumblers = last + 1 := by omega
    rw [htotal, hpfx, hnt2, List.range_succ]
    simp only [List.map_append, List.sum_append, List.map_cons, List.map_nil,
      List.sum_cons, List.sum_nil]
    have : ((List.range last).map fun k => sqrsVal (st k)).sum =
        ((List.range last).map fun k => sqrsVal (st1 k)).sum := by
      apply congrArg
      apply List.map_congr_left
      intro k hk
      rw [hagree k (List.mem_range.mp hk)]
    omega
  constructor
  · intro e he
    split_ifs at he with hsave
    · simp only [MovePTuple, List.mem_append, List.mem_singleton] at he
      rcases he with he | rfl
      · exact Or.inl he
      · right
        refine ⟨st1, hst1, ?_, ?_, ?_, ?_⟩
        · rw [← htotS]
        · rw [← htotS]; exact hsave.1
        · rw [← htotS]; exact hsave.2.1
        · rw [← htotS]; exact hsave.2.2
    · exact Or.inl he
  · apply odoCarry_bounded hns
    intro k hk
    split_ifs with hover
    · rw [Function.update_noteq hk]; exact hst1 k
    · rw [Function.update_noteq hk]; exact hst1 k

theorem odoRun_mem {cfg : OdoCfg} (hns : 1 ≤ cfg.numsqrs)
    (hnt : 1 ≤ cfg.numtumblers) :
    ∀ (fuel : Nat) (st : Nat → Nat) (table : List Tentry) (e : Tentry),
      (∀ k, st k < cfg.numsqrs) → e ∈ odoRun cfg fuel st table →
      e ∈ table ∨
        ∃ g : Nat → Nat, (∀ k, g k < cfg.numsqrs) ∧
          e = movEntry ((List.range cfg.numtumblers).map fun k => g k + 1)
            (isqrt
              (((List.range cfg.numtumblers).map fun k => sqrsVal (g k)).sum)) ∧
          cfg.bminSqr ≤
            ((List.range cfg.numtumblers).map fun k => sqrsVal (g k)).sum ∧
          ((List.range cfg.numtumblers).map fun k => sqrsVal (g k)).sum ≤
            cfg.bmaxSqr ∧
          isqrt
              (((List.range cfg.numtumblers).map fun k => sqrsVal (g k)).sum) *
              isqrt
                (((List.range cfg.numtumblers).map fun k =>
                  sqrsVal (g k)).sum) =
            ((List.range cfg.numtumblers).map fun k => sqrsVal (g k)).sum := by
  intro fuel
  induction fuel with
  | zero => intro st table e _ he; exact Or.inl he
  | succ fuel ih =>
    intro st table e hst he
    rw [odoRun] at he
    obtain ⟨hsave, hcarry⟩ := odoStep_spec hns hnt st table hst
    cases hstep : odoStep cfg st table with
    | mk table1 onext =>
      rw [hstep] at he hsave hcarry
      cases onext with
      | none => exact hsave e he
      | some st2 =>
        rcases hcarry with hcarry | ⟨st3, heq, hbound⟩
        · simp at hcarry
        · rw [Option.some_inj] at heq
          have hb2 : ∀ k, st2 k < cfg.numsqrs := by rw [heq]; exact hbound
          rcases ih st2 table1 e hb2 he with h | h
          · exact hsave e h
          · exact Or.inr h

theorem sum_map_one (n : Nat) : ((List.range n).map fun _ => 1).sum = n := by
  induction n with
  | zero => rfl
  | succ m ih => rw [List.range_succ]; simp [ih]

theorem odoCarry_none_of_numsqrs_zero {cfg : OdoCfg} (h : cfg.numsqrs = 0) :
    ∀ (i : Nat) (st : Nat → Nat), odoCarry cfg st i = none := by
  intro i
  induction i with
  | zero => intro st; rw [odoCarry]; simp [h]
  | succ j ih => intro st; rw [odoCarry]; simp [h, ih]

theorem odoStep_zero {cfg : OdoCfg} (h0 : cfg.numsqrs = 0)
    (hnt : 2 ≤ cfg.numtumblers) (hbmax : cfg.bmaxSqr ≤ 1)
    (table : List Tentry) : odoStep cfg (fun _ => 0) table = (table, none) := by
  have hone : ((List.range (cfg.numtumblers - 1)).map fun k =>
      sqrsVal ((fun _ : Nat => 0) k)).sum = cfg.numtumblers - 1 := by
    have heq : (fun k : Nat => sqrsVal ((fun _ : Nat => 0) k)) =
        fun _ : Nat => (1 : Nat) := by
      funext k; exact sqrsVal_zero
    rw [heq, sum_map_one]
  simp only [odoStep]
  set last := cfg.numtumblers - 1 with hlastdef
  set pfx := ((List.range last).map fun k =>
    sqrsVal ((fun _ : Nat => 0) k)).sum with hpfxdef
  have hpfx : pfx = last := hone
  set st1 := if (fun _ : Nat => 0) last = 0 ∧ 1 ≤ cfg.bminSqr - pfx then
      Function.update (fun _ : Nat => 0) last
        (skipIndex cfg.bminSqr pfx cfg.numsqrs)
    else (fun _ : Nat => 0) with hst1def
  have hst1last : st1 last = 0 := by
    rw [hst1def]
    split_ifs with h
    · rw [Function.update_same, h0, skipIndex_numsqrs_zero]
    · rfl
  clear hst1last hst1def
  have hrw : (if True ∧ 1 ≤ cfg.bminSqr - pfx then
      Function.update (fun _ : Nat => 0) last
        (skipIndex cfg.bminSqr pfx cfg.numsqrs)
    else fun _ : Nat => 0) last = 0 := by
    split_ifs with h
    · rw [Function.update_same, h0, skipIndex_numsqrs_zero]
    · rfl
  rw [hrw, sqrsVal_zero]
  rw [if_neg (by rintro ⟨_, hle, _⟩; omega)]
  simp [odoCarry_none_of_numsqrs_zero h0]

theorem odoRun_zero {cfg : OdoCfg} (h0 : cfg.numsqrs = 0)
    (hnt : 2 ≤ cfg.numtumblers) (hbmax : cfg.bmaxSqr ≤ 1) (fuel : Nat)
    (table : List Tentry) : odoRun cfg fuel (fun _ => 0) table = table := by
  cases fuel with
  | zero => rfl
  | succ fuel => rw [odoRun, odoStep_zero h0 hnt hbmax]

theorem le_of_mul_self_le_mul_self {a b : Nat} (h : a * a ≤ b * b) :
    a ≤ b := by
  by_contra hlt
  push_neg at hlt
  have := Nat.mul_self_lt_mul_self hlt
  omega

theorem ptuplesBuild_sound {prim : Bool} {b_min b_max N fuel : Nat}
    (h1 : 1 ≤ b_min) (h2 : b_min ≤ b_max) (h3 : b_max ≤ 4294967294)
    (hN : 3 ≤ N) :
    ∀ e ∈ ptuplesBuildNTuples prim b_min b_max N fuel,
      sumsq e.a = e.b * e.b ∧ b_min ≤ e.b ∧ e.b ≤ b_max ∧
        e.a.length = N - 1 ∧ e.a.Sorted (· ≤ ·) := by
  intro e he
  unfold ptuplesBuildNTuples at he
  simp only [List.mem_map, List.mem_filter] at he
  obtain ⟨e1, ⟨he1, _⟩, rfl⟩ := he
  obtain ⟨e0, he0, hperm, hb⟩ := mem_RemDupTuples he1
  by_cases hz : b_max - 1 = 0
  · rw [odoRun_zero (by exact hz) (by simp; omega)
      (by simp; have : b_max = 1 := by omega
          rw [this])] at he0
    simp at he0
  · have hmem := @odoRun_mem
      ⟨b_min * b_min, b_max * b_max, b_max - 1, N - 1⟩
      (by simp; omega) (by simp; omega) fuel (fun _ => 0) [] e0
      (fun k => by simp; omega) he0
    rcases hmem with h | ⟨g, hg, hE, hlo, hhi, hsq⟩
    · simp at h
    · simp only at hg hE hlo hhi hsq
      set S := ((List.range (N - 1)).map fun k => sqrsVal (g k)).sum with hSdef
      have hsq' : ∀ k, sqrsVal (g k) = (g k + 1) * (g k + 1) := by
        intro k
        apply sqrsVal_eq
        have := hg k
        simp at this
        omega
      have hsumsq0 : sumsq e0.a = S := by
        rw [hE]
        rw [movEntry_sumsq]
        unfold sumsq
        rw [List.map_map, hSdef]
        apply congrArg
        apply List.map_congr_left
        intro k _
        simp [hsq' k]
      have hb0 : e0.b = isqrt S := by rw [hE, movEntry_b]
      have hlen0 : e0.a.length = N - 1 := by
        rw [hE, movEntry_len, List.length_map, List.length_range]
      refine ⟨?_, ?_, ?_, ?_, movEntry_sorted _ _⟩
      · rw [movEntry_sumsq, sumsq_eq_of_perm hperm, hsumsq0, movEntry_b, hb,
          hb0, hsq]
      · rw [movEntry_b, hb, hb0]
        apply le_of_mul_self_le_mul_self
        rw [hsq]
        exact hlo
      · rw [movEntry_b, hb, hb0]
        apply le_of_mul_self_le_mul_self
        rw [hsq]
        exact hhi
      · rw [movEntry_len, hperm.length_eq, hlen0]

theorem map_movEntry_eq_self {l : List Tentry}
    (h : ∀ e ∈ l, e.a.Sorted (· ≤ ·)) :
    (l.map fun e => movEntry e.a e.b) = l := by
  induction l with
  | nil => rfl
  | cons x xs ih =>
    rw [List.map_cons, movEntry_eq_self (h x (by simp)),
      ih fun e he => h e (by simp [he])]

theorem build_final_pairwise {t : List Tentry} {p : Tentry → Bool} {m : Nat}
    (hsorted : ∀ x ∈ t, x.a.Sorted (· ≤ ·))
    (hlen : ∀ x ∈ t, x.a.length = m) :
    (((RemDupTuples t).filter p).map fun e => movEntry e.a e.b).Pairwise
      entLE := by
  have hsub : (RemDupTuples t).Sublist (sortTT t) :=
    RemDupTuples_sublist hsorted
  have hpair : (sortTT t).Pairwise entLE := sortTT_pairwise hlen
  have hpair2 : (RemDupTuples t).Pairwise entLE := hpair.sublist hsub
  have hfil : ((RemDupTuples t).filter p).Pairwise entLE :=
    hpair2.sublist (List.filter_sublist _)
  rw [map_movEntry_eq_self fun e he =>
    remDup_a_sorted (List.mem_of_mem_filter he) hsorted]
  exact hfil

theorem ptuples_tmp_facts {b_min b_max N fuel : Nat} (h1 : 1 ≤ b_min)
    (h2 : b_min ≤ b_max) (hN : 3 ≤ N) :
    ∀ e ∈ odoRun (OdoCfg.mk (b_min * b_min) (b_max * b_max) (b_max - 1)
        (N - 1)) fuel (fun _ => 0) [],
      e.a.Sorted (· ≤ ·) ∧ e.a.length = N - 1 := by
  intro e he
  by_cases hz : b_max - 1 = 0
  · rw [odoRun_zero hz (by simp; omega)
      (by simp; have hb : b_max = 1 := by omega
          rw [hb])] at he
    simp at he
  · rcases odoRun_mem (by simp; omega) (by simp; omega) fuel _ [] e
      (fun k => by simp; omega) he with h | ⟨g, hg, hE, _, _, _⟩
    · simp at h
    · rw [hE]
      exact ⟨movEntry_sorted _ _, by
        rw [movEntry_len, List.length_map, List.length_range]⟩

theorem ptuplesBuild_pairwise {prim : Bool} {b_min b_max N fuel : Nat}
    (h1 : 1 ≤ b_min) (h2 : b_min ≤ b_max) (hN : 3 ≤ N) :
    (ptuplesBuildNTuples prim b_min b_max N fuel).Pairwise entLE := by
  unfold ptuplesBuildNTuples
  exact build_final_pairwise
    (fun x hx => (ptuples_tmp_facts h1 h2 hN x hx).1)
    (fun x hx => (ptuples_tmp_facts h1 h2 hN x hx).2)

/-!
### Lemmas about `Build3Tuples` and the growth engine of `qkptuples.cpp`
-/

theorem sumsq_pair (x y : Nat) : sumsq [x, y] = x * x + y * y := by
  simp [sumsq]

theorem euclid_identity {m n : Nat} (h : n * n ≤ m * m) :
    (m * m - n * n) * (m * m - n * n) + (2 * (m * n)) * (2 * (m * n)) =
      (m * m + n * n) * (m * m + n * n) := by
  zify [h]
  ring

theorem kLoop_sound {a b c b_min b_max : Nat}
    (hid : a * a + b * b = c * c) :
    ∀ (fuel k0 : Nat), ∀ e ∈ kLoop a b c b_min b_max fuel k0,
      sumsq e.a = e.b * e.b ∧ b_min ≤ e.b ∧ e.b ≤ b_max ∧
        e.a.length = 2 ∧ e.a.Sorted (· ≤ ·) := by
  intro fuel
  induction fuel with
  | zero => intro k0 e he; simp [kLoop] at he
  | succ f ih =>
    intro k0 e he
    rw [kLoop] at he
    split_ifs at he with h1 h2
    · exact ih _ e he
    · rcases List.mem_cons.mp he with rfl | h3
      · refine ⟨?_, ?_, ?_, ?_, movEntry_sorted _ _⟩
        · rw [movEntry_sumsq, movEntry_b, sumsq_pair]
          calc (k0 * a) * (k0 * a) + (k0 * b) * (k0 * b)
              = k0 * k0 * (a * a + b * b) := by ring
            _ = k0 * k0 * (c * c) := by rw [hid]
            _ = (k0 * c) * (k0 * c) := by ring
        · rw [movEntry_b]; omega
        · rw [movEntry_b]; exact h1
        · rw [movEntry_len]; rfl
      · exact ih _ e h3
    · simp at he

theorem mLoop_sound {n nsq working b_min b_max m_max : Nat} {prim : Bool}
    (hn : nsq = n * n) (hwork : prim = true → working = b_min) :
    ∀ (fuel m : Nat), n < m →
      ∀ e ∈ mLoop n nsq working b_min b_max m_max prim fuel m,
        sumsq e.a = e.b * e.b ∧ b_min ≤ e.b ∧ e.b ≤ b_max ∧
          e.a.length = 2 ∧ e.a.Sorted (· ≤ ·) := by
  intro fuel
  induction fuel with
  | zero => intro m _ e he; simp [mLoop] at he
  | succ f ih =>
    intro m hm e he
    have hsq : n * n ≤ m * m := Nat.mul_le_mul (le_of_lt hm) (le_of_lt hm)
    simp only [mLoop] at he
    split_ifs at he with h1 hgcd hrange hp
    · simp only [List.nil_append] at he
      exact ih (m + 2) (by omega) e he
    · push_neg at hrange
      rcases List.mem_append.mp he with he | he
      · rcases List.mem_singleton.mp he with rfl
        have hw : working = b_min := hwork hp
        refine ⟨?_, ?_, ?_, ?_, movEntry_sorted _ _⟩
        · rw [movEntry_sumsq, movEntry_b, sumsq_pair, hn]
          exact euclid_identity hsq
        · rw [movEntry_b]; omega
        · rw [movEntry_b]; omega
        · rw [movEntry_len]; rfl
      · exact ih (m + 2) (by omega) e he
    · rcases List.mem_append.mp he with he | he
      · have hid2 : (m * m - nsq) * (m * m - nsq) +
            (2 * (m * n)) * (2 * (m * n)) =
            (m * m + nsq) * (m * m + nsq) := by
          rw [hn]; exact euclid_identity hsq
        exact kLoop_sound hid2 _ _ e he
      · exact ih (m + 2) (by omega) e he
    · simp only [List.nil_append] at he
      exact ih (m + 2) (by omega) e he
    · simp at he

theorem mem_foldr_append {α β : Type} {f : α → List β} {l : List α} {e : β} :
    e ∈ l.foldr (fun n acc => f n ++ acc) [] ↔ ∃ n ∈ l, e ∈ f n := by
  induction l with
  | nil => simp
  | cons x xs ih => simp [ih]

theorem Build3Tuples_sound {prim : Bool} {b_min b_max : Nat} :
    ∀ e ∈ Build3Tuples prim b_min b_max,
      sumsq e.a = e.b * e.b ∧ b_min ≤ e.b ∧ e.b ≤ b_max ∧
        e.a.length = 2 ∧ e.a.Sorted (· ≤ ·) := by
  intro e he
  unfold Build3Tuples at he
  rw [mem_foldr_append] at he
  obtain ⟨n, hn, he⟩ := he
  simp only [List.mem_map, List.mem_range] at hn
  obtain ⟨i, _, rfl⟩ := hn
  refine mLoop_sound rfl (fun hp => by simp [hp]) _ _ ?_ e he
  split_ifs <;> omega

/-!
### Lemmas about `GetFirstBIndex` and the substitution growth
-/

theorem bsearchLoop_found {t : List Tentry} {B : Nat} :
    ∀ (fuel lo hi m : Nat), hi ≤ t.length →
      bsearchLoop t B fuel lo hi = some m →
      m < t.length ∧ (t.getD m default).b = B := by
  intro fuel
  induction fuel with
  | zero => intro lo hi m _ h; simp [bsearchLoop] at h
  | succ f ih =>
    intro lo hi m hhi h
    simp only [bsearchLoop] at h
    split_ifs at h with h1 h2 h3
    · exact ih lo ((lo + hi) / 2) m (by omega) h
    · exact ih ((lo + hi) / 2 + 1) hi m hhi h
    · rw [Option.some_inj] at h
      subst h
      refine ⟨by omega, ?_⟩
      have hc : mpz_cmp B (t.getD ((lo + hi) / 2) default).b = 0 := by omega
      exact (mpz_cmp_eq_zero_iff.mp hc).symm

theorem backScan_spec {t : List Tentry} {B : Nat} :
    ∀ m : Nat, (t.getD m default).b = B →
      backScan t B m ≤ m ∧ (t.getD (backScan t B m) default).b = B := by
  intro m
  induction m using Nat.strong_induction_on with
  | _ m ih =>
    match m with
    | 0 => intro h; exact ⟨le_refl _, h⟩
    | 1 => intro h; exact ⟨le_refl _, h⟩
    | i + 2 =>
      intro h
      rw [backScan]
      split_ifs with hb
      · obtain ⟨hle, hB⟩ := ih (i + 1) (by omega) hb
        exact ⟨by omega, hB⟩
      · exact ⟨le_refl _, h⟩

theorem GetFirstBIndex_found {t : List Tentry} {B : Nat} {idx : Nat}
    (h : GetFirstBIndex t B = Int.ofNat idx) :
    idx < t.length ∧ (t.getD idx default).b = B := by
  unfold GetFirstBIndex at h
  cases hb : bsearchLoop t B (t.length + 1) 0 t.length with
  | none => rw [hb] at h; simp at h
  | some m =>
    rw [hb] at h
    have hfound := bsearchLoop_found _ _ _ _ (le_refl _) hb
    have hback := backScan_spec m hfound.2
    have hidx : backScan t B m = idx := by
      simpa using h
    rw [hidx] at hback
    exact ⟨by omega, hback.2⟩

theorem doWhileIdxs_spec {t : List Tentry} {B : Nat} :
    ∀ (fuel idx0 : Nat), idx0 < t.length → (t.getD idx0 default).b = B →
      ∀ i ∈ doWhileIdxs t B fuel idx0,
        i < t.length ∧ (t.getD i default).b = B := by
  intro fuel
  induction fuel with
  | zero => intro idx0 _ _ i hi; simp [doWhileIdxs] at hi
  | succ f ih =>
    intro idx0 hlt hB i hi
    rw [doWhileIdxs] at hi
    rcases List.mem_cons.mp hi with rfl | hi2
    · exact ⟨hlt, hB⟩
    · split_ifs at hi2 with hc
      · exact ih (idx0 + 1) hc.1 hc.2 i hi2
      · simp at hi2

theorem sumsq_append (l1 l2 : List Nat) :
    sumsq (l1 ++ l2) = sumsq l1 + sumsq l2 := by
  simp [sumsq]

theorem sumsq_split {l : List Nat} {j : Nat} (hj : j < l.length) :
    sumsq l = sumsq (l.take j) + (l.getD j 0) * (l.getD j 0) +
      sumsq (l.drop (j + 1)) := by
  conv_lhs => rw [← List.take_append_drop j l]
  rw [sumsq_append]
  have hdrop : l.drop j = l.getD j 0 :: l.drop (j + 1) := by
    rw [List.getD_eq_getElem?_getD, List.getElem?_eq_getElem hj]
    exact List.drop_eq_getElem_cons hj
  rw [hdrop]
  simp [sumsq]
  omega

theorem sumsq_newAValues {old : List Nat} {j x y : Nat} :
    sumsq (newAValues old j x y) =
      sumsq (old.take j) + (x * x + y * y) + sumsq (old.drop (j + 1)) := by
  unfold newAValues
  rw [sumsq_append, sumsq_append, sumsq_pair]

theorem newAValues_length {old : List Nat} {j x y : Nat}
    (hj : j < old.length) :
    (newAValues old j x y).length = old.length + 1 := by
  unfold newAValues
  simp
  omega

theorem list_len2_eq {l : List Nat} (h : l.length = 2) :
    l = [l.getD 0 0, l.getD 1 0] := by
  cases l with
  | nil => simp at h
  | cons x l2 =>
    cases l2 with
    | nil => simp at h
    | cons y l3 =>
      cases l3 with
      | nil => rfl
      | cons z l4 => simp at h

theorem getD_mem {t : List Tentry} {i : Nat} (h : i < t.length) :
    t.getD i default ∈ t := by
  rw [List.getD_eq_getElem?_getD, List.getElem?_eq_getElem h]
  exact List.getElem_mem h

theorem growOne_sound {three : List Tentry} {e e2 : Tentry}
    (hthree : ∀ x ∈ three, sumsq x.a = x.b * x.b ∧ x.a.length = 2)
    (hs : sumsq e.a = e.b * e.b) (h2 : e2 ∈ growOne three e) :
    sumsq e2.a = e2.b * e2.b ∧ e2.b = e.b ∧
      e2.a.length = e.a.length + 1 ∧
      ∃ x ∈ three, x.b * x.b ≤ sumsq e2.a := by
  unfold growOne at h2
  rw [List.mem_flatten] at h2
  obtain ⟨L, hL, hmem⟩ := h2
  rw [List.mem_map] at hL
  obtain ⟨j, hj, hLdef⟩ := hL
  rw [List.mem_range] at hj
  cases hGet : GetFirstBIndex three (e.a.getD j 0) with
  | ofNat idx0 =>
    simp only [hGet] at hLdef
    subst hLdef
    rw [List.mem_map] at hmem
    obtain ⟨idx, hidx, rfl⟩ := hmem
    obtain ⟨hf1, hf2⟩ := GetFirstBIndex_found hGet
    obtain ⟨hd1, hd2⟩ := doWhileIdxs_spec _ idx0 hf1 hf2 idx hidx
    have htmem : three.getD idx default ∈ three := getD_mem hd1
    obtain ⟨hts, htlen⟩ := hthree _ htmem
    have hta : (three.getD idx default).a =
        [(three.getD idx default).a.getD 0 0,
          (three.getD idx default).a.getD 1 0] := list_len2_eq htlen
    have hxy : (three.getD idx default).a.getD 0 0 *
          (three.getD idx default).a.getD 0 0 +
        (three.getD idx default).a.getD 1 0 *
          (three.getD idx default).a.getD 1 0 =
        (e.a.getD j 0) * (e.a.getD j 0) := by
      rw [← sumsq_pair, ← hta, hts, hd2]
    have hnew : sumsq (newAValues e.a j
        ((three.getD idx default).a.getD 0 0)
        ((three.getD idx default).a.getD 1 0)) = sumsq e.a := by
      rw [sumsq_newAValues, hxy, ← sumsq_split hj]
    refine ⟨?_, movEntry_b _ _, ?_, ?_⟩
    · rw [movEntry_sumsq, movEntry_b, hnew, hs]
    · rw [movEntry_len, newAValues_length hj]
    · refine ⟨three.getD idx default, htmem, ?_⟩
      rw [movEntry_sumsq, sumsq_newAValues, hxy, ← hd2]
      omega
  | negSucc k =>
    simp only [hGet] at hLdef
    subst hLdef
    simp at hmem

theorem growStage_inv {three cur : List Tentry} {lo hi L : Nat}
    (hthree : ∀ x ∈ three, sumsq x.a = x.b * x.b ∧ x.a.length = 2)
    (hcur : ∀ x ∈ cur, sumsq x.a = x.b * x.b ∧ lo ≤ x.b ∧ x.b ≤ hi ∧
      x.a.length = L) :
    ∀ e ∈ growStage three cur,
      sumsq e.a = e.b * e.b ∧ lo ≤ e.b ∧ e.b ≤ hi ∧
        e.a.length = L + 1 := by
  intro e he
  unfold growStage at he
  obtain ⟨e0, he0, hperm, hb⟩ := mem_RemDupTuples he
  rw [List.mem_flatten] at he0
  obtain ⟨L2, hL2, hmem0⟩ := he0
  rw [List.mem_map] at hL2
  obtain ⟨x, hx, rfl⟩ := hL2
  obtain ⟨hcs, hclo, hchi, hclen⟩ := hcur x hx
  obtain ⟨h1, h2, h3, _⟩ := growOne_sound hthree hcs hmem0
  refine ⟨?_, ?_, ?_, ?_⟩
  · rw [sumsq_eq_of_perm hperm, hb, h1]
  · rw [hb, h2]; exact hclo
  · rw [hb, h2]; exact hchi
  · rw [hperm.length_eq, h3, hclen]

theorem growStages_inv {three : List Tentry}
    (hthree : ∀ x ∈ three, sumsq x.a = x.b * x.b ∧ x.a.length = 2) :
    ∀ (s : Nat) (cur : List Tentry) (lo hi L : Nat),
      (∀ x ∈ cur, sumsq x.a = x.b * x.b ∧ lo ≤ x.b ∧ x.b ≤ hi ∧
        x.a.length = L) →
      ∀ e ∈ growStages three s cur,
        sumsq e.a = e.b * e.b ∧ lo ≤ e.b ∧ e.b ≤ hi ∧
          e.a.length = L + s := by
  intro s
  induction s with
  | zero =>
    intro cur lo hi L hcur e he
    rw [growStages] at he
    simpa using hcur e he
  | succ s ih =>
    intro cur lo hi L hcur e he
    rw [growStages] at he
    obtain ⟨a1, a2, a3, a4⟩ :=
      ih (growStage three cur) lo hi (L + 1) (growStage_inv hthree hcur) e he
    exact ⟨a1, a2, a3, by omega⟩

theorem qk_seed_inv {b_min b_max : Nat} :
    ∀ x ∈ ((sortTT (Build3Tuples false 5 b_max)).filter fun e =>
        b_min ≤ e.b).map fun e =>
          movEntry [e.a.getD 0 0, e.a.getD 1 0] e.b,
      sumsq x.a = x.b * x.b ∧ b_min ≤ x.b ∧ x.b ≤ b_max ∧
        x.a.length = 2 := by
  intro x hx
  rw [List.mem_map] at hx
  obtain ⟨y, hy, rfl⟩ := hx
  rw [List.mem_filter] at hy
  have hyb : b_min ≤ y.b := by simpa using hy.2
  obtain ⟨hs, _, hhi, hlen, _⟩ :=
    Build3Tuples_sound y ((sortTT_perm _).subset hy.1)
  have hya : y.a = [y.a.getD 0 0, y.a.getD 1 0] := list_len2_eq hlen
  refine ⟨?_, ?_, ?_, ?_⟩
  · rw [movEntry_sumsq, movEntry_b, ← hya, hs]
  · rw [movEntry_b]; exact hyb
  · rw [movEntry_b]; exact hhi
  · rw [movEntry_len]; rfl

theorem qkBuild_sound {prim : Bool} {b_min b_max N : Nat} (hN : 3 ≤ N) :
    ∀ e ∈ qkBuildNTuples prim b_min b_max N,
      sumsq e.a = e.b * e.b ∧ b_min ≤ e.b ∧ e.b ≤ b_max ∧
        e.a.length = N - 1 ∧ e.a.Sorted (· ≤ ·) := by
  intro e he
  simp only [qkBuildNTuples] at he
  split_ifs at he with h3
  · obtain ⟨hs, hlo, hhi, hlen, hsorted⟩ :=
      Build3Tuples_sound e ((sortTT_perm _).subset he)
    exact ⟨hs, hlo, hhi, by omega, hsorted⟩
  · have hthree : ∀ x ∈ sortTT (Build3Tuples false 5 b_max),
        sumsq x.a = x.b * x.b ∧ x.a.length = 2 := by
      intro x hx
      obtain ⟨a1, _, _, a4, _⟩ :=
        Build3Tuples_sound x ((sortTT_perm _).subset hx)
      exact ⟨a1, a4⟩
    have hr := (sortTT_perm _).subset he
    rw [List.mem_map] at hr
    obtain ⟨r, hrf, rfl⟩ := hr
    have hrg := List.mem_of_mem_filter hrf
    obtain ⟨a1, a2, a3, a4⟩ :=
      growStages_inv hthree (N - 3) _ b_min b_max 2 qk_seed_inv r hrg
    refine ⟨?_, ?_, ?_, ?_, movEntry_sorted _ _⟩
    · rw [movEntry_sumsq, movEntry_b, a1]
    · rw [movEntry_b]; exact a2
    · rw [movEntry_b]; exact a3
    · rw [movEntry_len, a4]; omega

theorem qkBuild_pairwise {prim : Bool} {b_min b_max N : Nat} (hN : 3 ≤ N) :
    (qkBuildNTuples prim b_min b_max N).Pairwise entLE := by
  have hlen : ∀ e ∈ qkBuildNTuples prim b_min b_max N,
      e.a.length = N - 1 :=
    fun e he => (qkBuild_sound hN e he).2.2.2.1
  simp only [qkBuildNTuples] at hlen ⊢
  split_ifs at hlen ⊢ with h3
  · exact sortTT_pairwise fun x hx =>
      hlen x ((sortTT_perm _).mem_iff.mpr hx)
  · exact sortTT_pairwise fun x hx =>
      hlen x ((sortTT_perm _).mem_iff.mpr hx)

theorem qkBuild_ge25 {prim : Bool} {b_min b_max : Nat} :
    ∀ e ∈ qkBuildNTuples prim b_min b_max 4, 25 ≤ sumsq e.a := by
  intro e he
  simp only [qkBuildNTuples] at he
  rw [if_neg (by omega)] at he
  have hthree : ∀ x ∈ sortTT (Build3Tuples false 5 b_max),
      sumsq x.a = x.b * x.b ∧ x.a.length = 2 := by
    intro x hx
    obtain ⟨a1, _, _, a4, _⟩ :=
      Build3Tuples_sound x ((sortTT_perm _).subset hx)
    exact ⟨a1, a4⟩
  have hthreeb : ∀ x ∈ sortTT (Build3Tuples false 5 b_max), 5 ≤ x.b :=
    fun x hx => (Build3Tuples_sound x ((sortTT_perm _).subset hx)).2.1
  have hr := (sortTT_perm _).subset he
  rw [List.mem_map] at hr
  obtain ⟨r, hrf, rfl⟩ := hr
  have hrg := List.mem_of_mem_filter hrf
  have h43 : 4 - 3 = 1 := rfl
  rw [h43, growStages, growStages] at hrg
  unfold growStage at hrg
  obtain ⟨e0, he0, hperm, hb⟩ := mem_RemDupTuples hrg
  rw [List.mem_flatten] at he0
  obtain ⟨L2, hL2, hmem0⟩ := he0
  rw [List.mem_map] at hL2
  obtain ⟨x, hx, rfl⟩ := hL2
  obtain ⟨_, _, _, t, htmem, htle⟩ :=
    growOne_sound hthree (qk_seed_inv x hx).1 hmem0
  have ht5 : 5 ≤ t.b := hthreeb t htmem
  have : 25 ≤ sumsq e0.a := le_trans (Nat.mul_le_mul ht5 ht5) htle
  rw [movEntry_sumsq, sumsq_eq_of_perm hperm]
  omega

/-!
### Lemmas about `TupleIsPrimitive`
-/

theorem foldl_gcd_of_one (l : List Nat) : List.foldl Nat.gcd 1 l = 1 := by
  induction l with
  | nil => rfl
  | cons y ys ihy => simpa [Nat.gcd_one_left] using ihy

theorem primLoop_iff (b : Nat) :
    ∀ (l : List Nat) (g : Nat),
      primLoop g l b = true ↔ Nat.gcd (l.foldl Nat.gcd g) b = 1 := by
  intro l
  induction l with
  | nil =>
    intro g
    rw [primLoop]
    by_cases hg : g = 1
    · subst hg
      simp [Nat.gcd_one_left]
    · rw [if_neg hg]
      simp [List.foldl]
  | cons x xs ih =>
    intro g
    rw [primLoop]
    by_cases hg : g = 1
    · subst hg
      rw [if_pos rfl]
      simp [List.foldl, Nat.gcd_one_left, foldl_gcd_of_one]
    · rw [if_neg hg]
      exact ih (Nat.gcd g x)

theorem gcd_foldl_foldr (b : Nat) :
    ∀ (l : List Nat) (g : Nat),
      Nat.gcd (l.foldl Nat.gcd g) b = Nat.gcd g (l.foldr Nat.gcd b) := by
  intro l
  induction l with
  | nil => intro g; rfl
  | cons x xs ih =>
    intro g
    rw [List.foldl_cons, List.foldr_cons, ih (Nat.gcd g x), Nat.gcd_assoc]

/-!
## The claims
-/

/-- Claim C1: for every tuple printed by either program (exhaustive
`ptuples` or approximate `qkptuples`), the sum of the squares of its
a-values equals b squared exactly, and b lies in the user-supplied range
[b_min, b_max].  The exhaustive program additionally requires its accepted
input bound b_max ≤ 2³²−2. -/
theorem claim_C1 (prim : Bool) (b_min b_max N fuel : Nat) (h1 : 1 ≤ b_min)
    (h2 : b_min ≤ b_max) (hN : 3 ≤ N) :
    (b_max ≤ 4294967294 →
      ∀ e ∈ ptuplesBuildNTuples prim b_min b_max N fuel,
        sumsq e.a = e.b * e.b ∧ b_min ≤ e.b ∧ e.b ≤ b_max) ∧
    (∀ e ∈ qkBuildNTuples prim b_min b_max N,
      sumsq e.a = e.b * e.b ∧ b_min ≤ e.b ∧ e.b ≤ b_max) := by
  constructor
  · intro h3 e he
    obtain ⟨a1, a2, a3, _, _⟩ := ptuplesBuild_sound h1 h2 h3 hN e he
    exact ⟨a1, a2, a3⟩
  · intro e he
    obtain ⟨a1, a2, a3, _, _⟩ := qkBuild_sound hN e he
    exact ⟨a1, a2, a3⟩

theorem claim_C1_witness :
    sumsq (Tentry.mk [3, 4] 5).a =
        (Tentry.mk [3, 4] 5).b * (Tentry.mk [3, 4] 5).b ∧
      1 ≤ (Tentry.mk [3, 4] 5).b ∧ (Tentry.mk [3, 4] 5).b ≤ 5 :=
  (claim_C1 false 1 5 3 200 (by decide) (by decide) (by decide)).1
    (by decide) (Tentry.mk [3, 4] 5) (by decide)

/-- Claim C2: the exhaustive engine, run in non-primitive mode with
tuple_size 3, b_min 1 and b_max 25, returns exactly the set of Pythagorean
triples with hypotenuse in [1,25]: the eight triples (3,4,5), (6,8,10),
(5,12,13), (9,12,15), (8,15,17), (12,16,20), (7,24,25), (15,20,25) — no
more (third conjunct) and no fewer (second conjunct). -/
theorem claim_C2 :
    ptuplesBuildNTuples false 1 25 3 2000 =
      [Tentry.mk [3, 4] 5, Tentry.mk [6, 8] 10, Tentry.mk [5, 12] 13,
        Tentry.mk [9, 12] 15, Tentry.mk [8, 15] 17, Tentry.mk [12, 16] 20,
        Tentry.mk [7, 24] 25, Tentry.mk [15, 20] 25] ∧
    (∀ x y b : Nat, 1 ≤ x → x ≤ y → x * x + y * y = b * b → b ≤ 25 →
      Tentry.mk [x, y] b ∈ ptuplesBuildNTuples false 1 25 3 2000) ∧
    (∀ e ∈ ptuplesBuildNTuples false 1 25 3 2000,
      ∃ x y : Nat, e.a = [x, y] ∧ 1 ≤ x ∧ x ≤ y ∧
        x * x + y * y = e.b * e.b ∧ 1 ≤ e.b ∧ e.b ≤ 25) := by
  have hEq : ptuplesBuildNTuples false 1 25 3 2000 =
      [Tentry.mk [3, 4] 5, Tentry.mk [6, 8] 10, Tentry.mk [5, 12] 13,
        Tentry.mk [9, 12] 15, Tentry.mk [8, 15] 17, Tentry.mk [12, 16] 20,
        Tentry.mk [7, 24] 25, Tentry.mk [15, 20] 25] := by decide
  have haux : ∀ y < 26, ∀ x < 26,
      ¬(1 ≤ x ∧ x ≤ y ∧
          isqrt (x * x + y * y) * isqrt (x * x + y * y) = x * x + y * y ∧
          isqrt (x * x + y * y) ≤ 25) ∨
        Tentry.mk [x, y] (isqrt (x * x + y * y)) ∈
          [Tentry.mk [3, 4] 5, Tentry.mk [6, 8] 10, Tentry.mk [5, 12] 13,
            Tentry.mk [9, 12] 15, Tentry.mk [8, 15] 17,
            Tentry.mk [12, 16] 20, Tentry.mk [7, 24] 25,
            Tentry.mk [15, 20] 25] := by decide
  refine ⟨hEq, ?_, ?_⟩
  · intro x y b hx hxy heq hb
    have hx2 : 1 * 1 ≤ x * x := Nat.mul_le_mul hx hx
    have hyb : y < b := by
      by_contra hc
      push_neg at hc
      have := Nat.mul_le_mul hc hc
      omega
    have hbEq : isqrt (x * x + y * y) = b := by
      rw [heq, isqrt_eq_sqrt, Nat.sqrt_eq]
    rcases haux y (by omega) x (by omega) with hno | hmem
    · exact absurd ⟨hx, hxy, by rw [hbEq, ← heq], by rw [hbEq]; exact hb⟩ hno
    · rw [hbEq] at hmem
      rw [hEq]
      exact hmem
  · rw [hEq]
    intro e he
    simp only [List.mem_cons, List.not_mem_nil, or_false] at he
    rcases he with rfl | rfl | rfl | rfl | rfl | rfl | rfl | rfl
    · exact ⟨3, 4, rfl, by omega, by omega, by decide, by decide, by decide⟩
    · exact ⟨6, 8, rfl, by omega, by omega, by decide, by decide, by decide⟩
    · exact ⟨5, 12, rfl, by omega, by omega, by decide, by decide, by decide⟩
    · exact ⟨9, 12, rfl, by omega, by omega, by decide, by decide, by decide⟩
    · exact ⟨8, 15, rfl, by omega, by omega, by decide, by decide, by decide⟩
    · exact ⟨12, 16, rfl, by omega, by omega, by decide, by decide, by decide⟩
    · exact ⟨7, 24, rfl, by omega, by omega, by decide, by decide, by decide⟩
    · exact ⟨15, 20, rfl, by omega, by omega, by decide, by decide, by decide⟩

theorem claim_C2_witness :
    Tentry.mk [3, 4] 5 ∈ ptuplesBuildNTuples false 1 25 3 2000 :=
  claim_C2.2.1 3 4 5 (by decide) (by decide) (by decide) (by decide)

/-- Claim C3: for every b_max ≥ 3 (and any b_min and primitivity flag) the
approximate engine at tuple_size 4 never outputs the tuple (1,2,2,3) —
every tuple it builds contains the two legs of a Pythagorean triple with
hypotenuse ≥ 5, so its squares sum to at least 25, while 1²+2²+2² = 9 —
whereas the exhaustive engine with tuple_size 4, b_min 1, b_max 3 does
output it. -/
theorem claim_C3 :
    (∀ (prim : Bool) (b_min b_max : Nat), 3 ≤ b_max →
      Tentry.mk [1, 2, 2] 3 ∉ qkBuildNTuples prim b_min b_max 4) ∧
    Tentry.mk [1, 2, 2] 3 ∈ ptuplesBuildNTuples false 1 3 4 200 := by
  constructor
  · intro prim b_min b_max _ hmem
    have h25 := qkBuild_ge25 _ hmem
    have h9 : sumsq (Tentry.mk [1, 2, 2] 3).a = 9 := by decide
    omega
  · decide

theorem claim_C3_witness :
    Tentry.mk [1, 2, 2] 3 ∉ qkBuildNTuples false 1 3 4 :=
  claim_C3.1 false 1 3 (by decide)

/-- Claim C5: for every a-vector of length ≥ 2 and every b,
`TupleIsPrimitive` returns primitive iff the combined gcd of all a-values
and b is 1; for an a-vector of length < 2 it reports an internal error and
returns "not primitive". -/
theorem claim_C5 (avalues : List Nat) (b : Nat) :
    (2 ≤ avalues.length →
      (TupleIsPrimitive avalues b = true ↔ avalues.foldr Nat.gcd b = 1)) ∧
    (avalues.length < 2 →
      TupleIsPrimitive avalues b = false ∧
        TupleIsPrimitiveReportsError avalues = true) := by
  constructor
  · intro hlen
    match avalues, hlen with
    | a0 :: a1 :: rest, _ =>
      unfold TupleIsPrimitive
      rw [if_neg (by simp)]
      simp only [List.getD_cons_zero, List.getD_cons_succ, List.drop_succ_cons,
        List.drop_zero]
      rw [primLoop_iff, gcd_foldl_foldr, List.foldr_cons, List.foldr_cons,
        Nat.gcd_assoc]
  · intro hlen
    constructor
    · unfold TupleIsPrimitive
      rw [if_pos hlen]
    · unfold TupleIsPrimitiveReportsError
      simp [hlen]

theorem claim_C5_witness :
    TupleIsPrimitive [3, 4] 5 = true ∧ TupleIsPrimitive [] 7 = false :=
  ⟨((claim_C5 [3, 4] 5).1 (by decide)).mpr (by decide),
    ((claim_C5 [] 7).2 (by decide)).1⟩

/-- Claim C6 is a code bug: `GetFirstBIndex` is specified to return the
index of the first entry of the contiguous run whose b equals the target
(in particular 0 when entry 0 matches), but the backward scan in the source
is `while (index > 1 && ...)` instead of `index > 0`, so on the two-entry
table [(7,24,25),(15,20,25)] (sorted by b) with target 25 the code returns
index 1 although entry 0 already has b = 25. -/
theorem claim_C6_bug :
    GetFirstBIndex [Tentry.mk [7, 24] 25, Tentry.mk [15, 20] 25] 25 = 1 ∧
      (([Tentry.mk [7, 24] 25,
        Tentry.mk [15, 20] 25].getD 0 default).b = 25) := by
  decide

/-- Claim C7: every digit combination that the first-visit skip-ahead jumps
over (last-digit a-value v with 1 ≤ v ≤ the jumped-to index `skipIndex`)
has total sum of squares strictly less than b_min²; in particular the
skip-ahead never skips a combination whose sum of squares lies in
[b_min², b_max²].  `1 ≤ bminSqr - pfx` is the `tempZ ≥ 1` guard under which
the skip-ahead is applied. -/
theorem claim_C7 (bminSqr bmaxSqr pfx numsqrs v : Nat)
    (happ : 1 ≤ bminSqr - pfx) (hv1 : 1 ≤ v)
    (hv2 : v ≤ skipIndex bminSqr pfx numsqrs) :
    pfx + v * v < bminSqr ∧
      ¬(bminSqr ≤ pfx + v * v ∧ pfx + v * v ≤ bmaxSqr) := by
  have hmain : pfx + v * v < bminSqr := by
    have hs := Nat.sqrt_le (bminSqr - pfx)
    have hexp : (v + 1) * (v + 1) = v * v + 2 * v + 1 := by ring
    simp only [skipIndex, isqrt_eq_sqrt] at hv2
    by_cases h1 : 0 < Nat.sqrt (bminSqr - pfx)
    · rw [if_pos h1] at hv2
      by_cases h2 : Nat.sqrt (bminSqr - pfx) - 1 ≥ numsqrs
      · rw [if_pos h2] at hv2
        have hvs : v + 1 ≤ Nat.sqrt (bminSqr - pfx) := by omega
        have hmul := Nat.mul_le_mul hvs hvs
        omega
      · rw [if_neg h2] at hv2
        have hvs : v + 1 ≤ Nat.sqrt (bminSqr - pfx) := by omega
        have hmul := Nat.mul_le_mul hvs hvs
        omega
    · rw [if_neg h1] at hv2
      have hs0 : Nat.sqrt (bminSqr - pfx) = 0 := by omega
      rw [hs0] at hv2
      split_ifs at hv2 <;> omega
  exact ⟨hmain, by omega⟩

theorem claim_C7_witness :
    16 + 5 * 5 < 100 ∧ ¬(100 ≤ 16 + 5 * 5 ∧ 16 + 5 * 5 ≤ 625) :=
  claim_C7 100 625 16 24 5 (by decide) (by decide) (by decide)

/-- Claim C8: every entry inserted via `MovePTuple` (modelled by `movEntry`)
has its a-vector sorted ascending, and both programs' final tables are
sorted by `ttable_tentry_cmpfunc` (b ascending, then a-vector
lexicographically ascending, modelled by `entLE`), with every listed entry's
a-vector ascending. -/
theorem claim_C8 (prim : Bool) (b_min b_max N fuel : Nat)
    (h1 : 1 ≤ b_min) (h2 : b_min ≤ b_max) (hN : 3 ≤ N) :
    (∀ (a : List Nat) (b : Nat), (movEntry a b).a.Sorted (· ≤ ·)) ∧
    (ptuplesBuildNTuples prim b_min b_max N fuel).Pairwise entLE ∧
    (∀ e ∈ ptuplesBuildNTuples prim b_min b_max N fuel,
      e.a.Sorted (· ≤ ·)) ∧
    (qkBuildNTuples prim b_min b_max N).Pairwise entLE ∧
    (∀ e ∈ qkBuildNTuples prim b_min b_max N, e.a.Sorted (· ≤ ·)) := by
  refine ⟨fun a b => movEntry_sorted a b,
    ptuplesBuild_pairwise h1 h2 hN, ?_,
    qkBuild_pairwise hN,
    fun e he => (qkBuild_sound hN e he).2.2.2.2⟩
  intro e he
  unfold ptuplesBuildNTuples at he
  simp only [List.mem_map] at he
  obtain ⟨e1, _, rfl⟩ := he
  exact movEntry_sorted e1.a e1.b

theorem claim_C8_witness : (movEntry [2, 1] 9).a.Sorted (· ≤ ·) :=
  (claim_C8 false 1 5 3 200 (by decide) (by decide) (by decide)).1 [2, 1] 9

/-- Claim C9: for every invalid command line (wrong argument count,
tuple_size < 3, b_min < 1, b_max < b_min, or — for ptuples only —
b_max > MAXB = 2³²−2) the program prints a diagnostic, exits with code 1
and prints no tuple lines; on valid input it exits with code 0 with no
diagnostic. -/
theorem claim_C9 (argc : Nat) (argv1IsDashP : Bool)
    (tuple_size b_min b_max : Int) (fuel : Nat) :
    ((argc ≠ 4 ∧ argc ≠ 5) ∨ tuple_size < 3 ∨ b_min < 1 ∨ b_max < b_min ∨
        (MAXB : Int) < b_max →
      ptuplesMain argc argv1IsDashP tuple_size b_min b_max fuel =
        ⟨1, true, []⟩) ∧
    (¬((argc ≠ 4 ∧ argc ≠ 5) ∨ tuple_size < 3 ∨ b_min < 1 ∨ b_max < b_min ∨
        (MAXB : Int) < b_max) →
      (ptuplesMain argc argv1IsDashP tuple_size b_min b_max fuel).exitCode =
          0 ∧
        (ptuplesMain argc argv1IsDashP tuple_size b_min b_max fuel).diag =
          false) ∧
    ((argc ≠ 4 ∧ argc ≠ 5) ∨ tuple_size < 3 ∨ b_min < 1 ∨ b_max < b_min →
      qkMain argc argv1IsDashP tuple_size b_min b_max = ⟨1, true, []⟩) ∧
    (¬((argc ≠ 4 ∧ argc ≠ 5) ∨ tuple_size < 3 ∨ b_min < 1 ∨
        b_max < b_min) →
      (qkMain argc argv1IsDashP tuple_size b_min b_max).exitCode = 0 ∧
        (qkMain argc argv1IsDashP tuple_size b_min b_max).diag = false) := by
  unfold ptuplesMain qkMain
  refine ⟨?_, ?_, ?_, ?_⟩ <;> intro h <;> split_ifs <;>
    first
      | rfl
      | exact ⟨rfl, rfl⟩
      | tauto

theorem claim_C9_witness :
    ptuplesMain 3 false 3 1 5 200 = ⟨1, true, []⟩ ∧
    (qkMain 4 false 3 1 5).exitCode = 0 ∧
    (qkMain 4 false 3 1 5).diag = false :=
  ⟨(claim_C9 3 false 3 1 5 200).1 (by decide),
   (claim_C9 4 false 3 1 5 200).2.2.2 (by decide)⟩

/-- Claim C10: for every accepted b_max (≤ 2³²−2) the precomputed square
table of `BuildNTuples` stores exactly i² at index i−1 for every
1 ≤ i ≤ b_max−1: the 64-bit product i*i never wraps modulo 2⁶⁴. -/
theorem claim_C10 (b_max i : Nat) (hbm : b_max ≤ 4294967294)
    (h1 : 1 ≤ i) (h2 : i ≤ b_max - 1) :
    sqrsVal (i - 1) = i * i := by
  have hi : i - 1 + 1 = i := by omega
  rw [sqrsVal_eq (by omega), hi]

theorem claim_C10_witness :
    sqrsVal (4294967293 - 1) = 4294967293 * 4294967293 :=
  claim_C10 4294967294 4294967293 (by decide) (by decide) (by decide)

end MathRec
